import Mathlib

set_option maxHeartbeats 1000000

/-!
Shallow embedding of the Buddhabrot renderer (src/main.rs).

Float (`f32`) arithmetic is modelled by exact rational arithmetic `ℚ`;
`u16` counters are modelled by natural numbers together with explicit
saturation at 65535; Rust's panicking integer division is modelled by
`Option`.  A small inductive `F32` with `nan` / infinity constructors is
used where the behaviour of the bounds check on non-finite values matters.
-/

namespace BuddhaFractal

/-- Maximum value representable by a `u16` counter. -/
def U16MAX : ℕ := 65535

/-- Maximum value representable by a `usize` (64-bit platform). -/
def USIZEMAX : ℕ := 2 ^ 64 - 1

/-- Embedding of `u16::saturating_add` on natural-number representatives. -/
def satAdd (a b : ℕ) : ℕ := min (a + b) U16MAX

/-- Embedding of `type Image = Vec<u16>`: a dense row-major grid of counters. -/
abbrev Histogram := List ℕ

/-- Embedding of `image_data[idx] = image_data[idx].saturating_add(1)`.
Out-of-range indices leave the list unchanged (the in-range case is the one
exercised by the program; the bounds theorem shows the index is in range). -/
def incrAt (img : Histogram) (i : ℕ) : Histogram :=
  img.set i (satAdd (img.getD i 0) 1)

/-- Embedding of the in-place merge loop
`out.iter_mut().zip(image.iter()).for_each(|(o, i)| *o = o.saturating_add(*i))`:
the accumulator keeps its own length, entries beyond the other list's length
are unchanged. -/
def hAdd : Histogram → Histogram → Histogram
  | [], _ => []
  | o, [] => o
  | a :: o, b :: i => satAdd a b :: hAdd o i

/-- Embedding of the aggregation in `main`: `images.pop().unwrap()` then fold
the remaining histograms in order with element-wise saturating addition. -/
def mergeAll (l : List Histogram) : Histogram :=
  match l.getLast? with
  | none => []
  | some last => l.dropLast.foldl hAdd last

/-- Embedding of the CLI options record `Opt` (output path omitted; it only
feeds the PNG writer). -/
structure Opt where
  width : ℕ
  height : ℕ
  center_x : ℚ
  center_y : ℚ
  scale : ℚ
  disc : ℚ
  div : ℕ
  iters : ℕ
  steps : ℕ

/-- Embedding of the framing closure `let scale = |x| ((x / args.scale) + 1.) / 2.`. -/
def scaleFn (args : Opt) (x : ℚ) : ℚ := ((x / args.scale) + 1) / 2

/-- Embedding of `let aspect = args.width as f32 / args.height as f32`. -/
def aspect (args : Opt) : ℚ := (args.width : ℚ) / (args.height : ℚ)

/-- Embedding of `let x = scale((x - args.center_x) / aspect) * args.width as f32`. -/
def screen_x (args : Opt) (px : ℚ) : ℚ :=
  scaleFn args ((px - args.center_x) / aspect args) * (args.width : ℚ)

/-- Embedding of `let y = scale(y - args.center_y) * args.height as f32`. -/
def screen_y (args : Opt) (py : ℚ) : ℚ :=
  scaleFn args (py - args.center_y) * (args.height : ℚ)

/-- The spec's screen-x formula, written from its words:
normalized = ((p / img_scale) + 1) / 2 and
screen_x = normalized((px - center_x)/aspect) * width. -/
def spec_screen_x (args : Opt) (px : ℚ) : ℚ :=
  ((((px - args.center_x) / aspect args) / args.scale + 1) / 2) * (args.width : ℚ)

/-- The spec's screen-y formula, written from its words:
screen_y = normalized(py - center_y) * height. -/
def spec_screen_y (args : Opt) (py : ℚ) : ℚ :=
  (((py - args.center_y) / args.scale + 1) / 2) * (args.height : ℚ)

/-- Squared magnitude of a complex value given by its two components. -/
def sqNorm (p : ℚ × ℚ) : ℚ := p.1 * p.1 + p.2 * p.2

/-- One step of the Mandelbrot recurrence as written in `mandelbrot`:
tmp = a*a - b*b + x; b = 2*a*b + y; a = tmp (b is updated from the old a). -/
def mandelStep (x y : ℚ) (p : ℚ × ℚ) : ℚ × ℚ :=
  (p.1 * p.1 - p.2 * p.2 + x, 2 * p.1 * p.2 + y)

/-- The mathematical recurrence z₀ = 0, zₙ₊₁ = zₙ² + seed (componentwise). -/
def zIter (x y : ℚ) : ℕ → ℚ × ℚ
  | 0 => (0, 0)
  | n + 1 => mandelStep x y (zIter x y n)

/-- Embedding of the body of `std::iter::from_fn` in `mandelbrot`, consumed
through `.take`: starting from internal state `z` and with `n` calls left,
each call advances the state and emits it unless its squared magnitude
exceeds `r = disc * disc`, in which case the sequence ends. -/
def mandelbrotAux (x y r : ℚ) (z : ℚ × ℚ) : ℕ → List (ℚ × ℚ)
  | 0 => []
  | n + 1 =>
    let z1 := mandelStep x y z
    if z1.1 * z1.1 + z1.2 * z1.2 > r then []
    else z1 :: mandelbrotAux x y r z1 n

/-- Embedding of `mandelbrot(x, y, disc).take(n)`: the first at most `n`
emitted values, starting from internal state (0, 0). -/
def mandelbrot (x y disc : ℚ) (n : ℕ) : List (ℚ × ℚ) :=
  mandelbrotAux x y (disc * disc) (0, 0) n

/-- Value class of an `f32` as far as the bounds check and the `as usize`
cast are concerned: a finite value (modelled exactly by a rational), NaN,
or one of the two infinities. -/
inductive F32 where
  | fin (q : ℚ)
  | nan
  | posInf
  | negInf
deriving DecidableEq

/-- IEEE comparison `v >= 0.0`: false for NaN, true for +∞, false for -∞. -/
def F32.ge0 : F32 → Bool
  | .fin q => decide (0 ≤ q)
  | .nan => false
  | .posInf => true
  | .negInf => false

/-- IEEE comparison `v < b` against a finite bound: false for NaN and +∞,
true for -∞. -/
def F32.ltQ : F32 → ℚ → Bool
  | .fin q, b => decide (q < b)
  | .nan, _ => false
  | .posInf, _ => false
  | .negInf, _ => true

/-- Rust's saturating `as usize` cast from `f32`: truncation toward zero,
negative values and NaN go to 0, values beyond `usize::MAX` (and +∞)
saturate at `usize::MAX`. -/
def F32.toUsize : F32 → ℕ
  | .fin q => min (Int.toNat ⌊q⌋) USIZEMAX
  | .nan => 0
  | .posInf => USIZEMAX
  | .negInf => 0

/-- Embedding of `let bound_x = x >= 0. && x < args.width as f32`. -/
def bound_x (args : Opt) (x : F32) : Bool :=
  x.ge0 && x.ltQ (args.width : ℚ)

/-- Embedding of `let bound_y = y >= 0. && y < args.height as f32`. -/
def bound_y (args : Opt) (y : F32) : Bool :=
  y.ge0 && y.ltQ (args.height : ℚ)

/-- Embedding of the per-point body of the worker loop: bounds check on the
mapped screen coordinates, then `idx = x as usize + y as usize * width` and
a saturating increment of that cell; rejected points leave the histogram
unchanged. -/
def processPoint (args : Opt) (img : Histogram) (x y : F32) : Histogram :=
  if bound_x args x && bound_y args y then
    incrAt img (x.toUsize + y.toUsize * args.width)
  else img

/-- The per-point body applied to a path point given exactly (mapping the
point to screen coordinates with exact rational arithmetic). -/
def processPointQ (args : Opt) (img : Histogram) (p : ℚ × ℚ) : Histogram :=
  processPoint args img (F32.fin (screen_x args p.1)) (F32.fin (screen_y args p.2))

/-- Embedding of the per-sample body of `worker_thread`: the collected path
contributes its points only when `steps.len() != args.steps`. -/
def processSample (args : Opt) (img : Histogram) (path : List (ℚ × ℚ)) : Histogram :=
  if path.length ≠ args.steps then path.foldl (processPointQ args) img else img

/-- One full sample of `worker_thread`: collect
`mandelbrot(x, y, disc).take(steps)` and process it. -/
def workerSample (args : Opt) (img : Histogram) (x y : ℚ) : Histogram :=
  processSample args img (mandelbrot x y args.disc args.steps)

/-- Embedding of `disc(radius)` consumed through the first `n` draws of each
stream: zip the two draw streams and keep the pairs with
`x*x + y*y < radius*radius`. -/
def disc_points (radius : ℚ) (xs ys : ℕ → ℚ) (n : ℕ) : List (ℚ × ℚ) :=
  ((List.range n).map (fun i => (xs i, ys i))).filter
    (fun p => decide (p.1 * p.1 + p.2 * p.2 < radius * radius))

/-- Reference rejection sampler, written from the spec's words: draw x and y,
accept the pair iff x² + y² < r², repeat. -/
def rejectionSampler (radius : ℚ) (xs ys : ℕ → ℚ) (n : ℕ) : List (ℚ × ℚ) :=
  (List.range n).filterMap
    (fun i => if (xs i) * (xs i) + (ys i) * (ys i) < radius * radius
      then some (xs i, ys i) else none)

/-- Rust unsigned integer division: panics (modelled as `none`) when the
divisor is zero. -/
def rustDiv (a b : ℕ) : Option ℕ :=
  if b = 0 then none else some (a / b)

/-- Embedding of the per-cell coloring `(i / args.div).min(u8::MAX as u16)`. -/
def colorCell (v d : ℕ) : Option ℕ :=
  (rustDiv v d).map (fun q => min q 255)

/-- Embedding of the coloring pass over the merged histogram; a panic while
coloring any cell aborts the whole pass. -/
def colorImage (args : Opt) (img : Histogram) : Option (List ℕ) :=
  img.mapM (fun v => colorCell v args.div)

/-! ### Basic lemmas about saturating counters -/

lemma le_satAdd {a : ℕ} (b : ℕ) (h : a ≤ U16MAX) : a ≤ satAdd a b :=
  le_min (Nat.le_add_right a b) h

lemma satAdd_le (a b : ℕ) : satAdd a b ≤ U16MAX := Nat.min_le_right _ _

lemma satAdd_of_max (b : ℕ) : satAdd U16MAX b = U16MAX := by
  simp [satAdd, U16MAX]

lemma satAdd_right_comm (a b c : ℕ) : satAdd (satAdd a b) c = satAdd (satAdd a c) b := by
  simp only [satAdd, U16MAX]
  omega

lemma satAdd_comm (a b : ℕ) : satAdd a b = satAdd b a := by
  simp only [satAdd, Nat.add_comm]

lemma incrAt_getD (img : Histogram) (i j : ℕ) :
    (incrAt img i).getD j 0 =
      if i = j ∧ j < img.length then satAdd (img.getD j 0) 1 else img.getD j 0 := by
  simp only [incrAt, List.getD_eq_getElem?_getD, List.getElem?_set]
  by_cases hij : i = j
  · subst hij
    by_cases hl : i < img.length
    · simp [hl]
    · simp [hl, List.getElem?_eq_none (Nat.le_of_not_lt hl)]
  · simp [hij]

lemma hAdd_nil (o : Histogram) : hAdd o [] = o := by
  cases o <;> rfl

lemma hAdd_length (o i : Histogram) : (hAdd o i).length = o.length := by
  induction o generalizing i with
  | nil => cases i <;> rfl
  | cons a t ih =>
    cases i with
    | nil => rfl
    | cons b s => simp [hAdd, ih]

lemma hAdd_getD (o i : Histogram) (j : ℕ) :
    (hAdd o i).getD j 0 =
      if j < o.length ∧ j < i.length then satAdd (o.getD j 0) (i.getD j 0)
      else o.getD j 0 := by
  induction o generalizing i j with
  | nil => simp [hAdd]
  | cons a t ih =>
    cases i with
    | nil => simp [hAdd_nil]
    | cons b s =>
      cases j with
      | zero => simp [hAdd]
      | succ k => simpa [hAdd, Nat.succ_lt_succ_iff] using ih s k

/-! ### C2: the coordinate mapping -/

/-- C2: for every path point, the worker's screen coordinates are exactly the
spec's formulas screen_x = ((((px - cx)/aspect)/scale + 1)/2)·width and
screen_y = (((py - cy)/scale + 1)/2)·height, with aspect = width/height and
normalized(p) = ((p/scale) + 1)/2. -/
theorem screen_mapping_matches_spec (args : Opt) (px py : ℚ) :
    screen_x args px = spec_screen_x args px ∧
      screen_y args py = spec_screen_y args py :=
  ⟨rfl, rfl⟩

/-! ### C5: counters are monotone and saturate -/

/-- C5: a u16 counter never decreases: the saturating add itself, the
worker's per-cell increment, and the aggregator's element-wise addition are
all monotone on every cell, stay within the u16 range, and fix a cell that
already holds 65535. -/
theorem histogram_counters_monotone :
    (∀ a b : ℕ, a ≤ U16MAX →
      a ≤ satAdd a b ∧ satAdd a b ≤ U16MAX ∧ (a = U16MAX → satAdd a b = U16MAX))
    ∧ (∀ (img : Histogram) (i j : ℕ), img.getD j 0 ≤ U16MAX →
      img.getD j 0 ≤ (incrAt img i).getD j 0 ∧
        (img.getD j 0 = U16MAX → (incrAt img i).getD j 0 = U16MAX))
    ∧ (∀ (o i : Histogram) (j : ℕ), o.getD j 0 ≤ U16MAX →
      o.getD j 0 ≤ (hAdd o i).getD j 0 ∧
        (o.getD j 0 = U16MAX → (hAdd o i).getD j 0 = U16MAX)) := by
  refine ⟨fun a b h => ⟨le_satAdd b h, satAdd_le a b, fun hm => by
    subst hm; exact satAdd_of_max b⟩, ?_, ?_⟩
  · intro img i j h
    rw [incrAt_getD]
    split
    · exact ⟨le_satAdd 1 h, fun hm => by rw [hm]; exact satAdd_of_max 1⟩
    · exact ⟨le_rfl, fun hm => hm⟩
  · intro o i j h
    rw [hAdd_getD]
    split
    · exact ⟨le_satAdd _ h, fun hm => by rw [hm]; exact satAdd_of_max _⟩
    · exact ⟨le_rfl, fun hm => hm⟩

theorem histogram_counters_monotone_witness :
    ((65535 : ℕ) ≤ satAdd 65535 7 ∧ satAdd 65535 7 = 65535)
      ∧ (incrAt [65535] 0).getD 0 0 = 65535 := by
  have h1 := histogram_counters_monotone.1 65535 7 (by decide)
  have h2 := histogram_counters_monotone.2.1 [65535] 0 0 (by decide)
  exact ⟨⟨h1.1, h1.2.2 rfl⟩, h2.2 rfl⟩

/-! ### C7: coloring divides then clamps -/

/-- C7: with divisor d ≥ 1 each output pixel is min(255, V / d) with
truncating division, both per cell and over the whole merged histogram; in
particular 511/2 ↦ 255, 512/2 ↦ 255 (clamped) and 509/2 ↦ 254. -/
theorem coloring_min_div (args : Opt) (hd : 1 ≤ args.div) (v : ℕ) (img : Histogram) :
    colorCell v args.div = some (min 255 (v / args.div))
    ∧ colorImage args img = some (img.map (fun c => min 255 (c / args.div)))
    ∧ colorCell 511 2 = some 255 ∧ colorCell 512 2 = some 255
    ∧ colorCell 509 2 = some 254 := by
  have hne : args.div ≠ 0 := by omega
  have hcell : ∀ w : ℕ, colorCell w args.div = some (min 255 (w / args.div)) := by
    intro w
    simp [colorCell, rustDiv, hne, Nat.min_comm]
  refine ⟨hcell v, ?_, by decide, by decide, by decide⟩
  rw [colorImage, ← List.mapM'_eq_mapM]
  induction img with
  | nil => rfl
  | cons c t ih =>
    rw [List.mapM'_cons, hcell c, ih]
    rfl

theorem coloring_min_div_witness :
    colorCell 511 2 = some 255 ∧ colorCell 512 2 = some 255
      ∧ colorCell 509 2 = some 254 := by
  have h := coloring_min_div ⟨1, 1, 0, 0, 1, 3, 2, 0, 0⟩ (by decide) 511 []
  exact ⟨h.2.2.1, h.2.2.2.1, h.2.2.2.2⟩

/-! ### C10: the coloring division is unguarded -/

/-- C10: coloring is total for every divisor d ≥ 1, but the division is
unguarded: with d = 0 (a value the u16 CLI flag admits) every cell's
coloring panics (modelled as none) and the whole coloring pass of any
non-empty histogram aborts instead of producing an image. -/
theorem div_by_zero_panics :
    (∀ v : ℕ, colorCell v 0 = none)
    ∧ (∀ args : Opt, args.div = 0 → ∀ img : Histogram, img ≠ [] →
        colorImage args img = none)
    ∧ (∀ v d : ℕ, 1 ≤ d → (colorCell v d).isSome = true) := by
  refine ⟨fun v => by simp [colorCell, rustDiv], ?_, fun v d hd => by
    have : d ≠ 0 := by omega
    simp [colorCell, rustDiv, this]⟩
  intro args h img hne
  cases img with
  | nil => exact absurd rfl hne
  | cons c t =>
    rw [colorImage, ← List.mapM'_eq_mapM, List.mapM'_cons]
    simp [h, colorCell, rustDiv]

theorem div_by_zero_panics_witness :
    colorCell 7 0 = none
      ∧ colorImage ⟨1, 1, 0, 0, 1, 3, 0, 0, 0⟩ [5] = none
      ∧ (colorCell 7 2).isSome = true := by
  have h := div_by_zero_panics
  exact ⟨h.1 7, h.2.1 ⟨1, 1, 0, 0, 1, 3, 0, 0, 0⟩ rfl [5] (by simp), h.2.2 7 2 (by decide)⟩

/-! ### Lemmas about the complex iterator -/

lemma sqNorm_def (p : ℚ × ℚ) : p.1 * p.1 + p.2 * p.2 = sqNorm p := rfl

lemma mandelbrotAux_length_le (x y r : ℚ) (z : ℚ × ℚ) (n : ℕ) :
    (mandelbrotAux x y r z n).length ≤ n := by
  induction n generalizing z with
  | zero => simp [mandelbrotAux]
  | succ n ih =>
    simp only [mandelbrotAux]
    split
    · exact Nat.zero_le _
    · simpa using ih _

lemma mandelbrotAux_getElem? (x y r : ℚ) :
    ∀ (n j k : ℕ), k < (mandelbrotAux x y r (zIter x y j) n).length →
      (mandelbrotAux x y r (zIter x y j) n)[k]? = some (zIter x y (j + k + 1)) := by
  intro n
  induction n with
  | zero => intro j k hk; simp [mandelbrotAux] at hk
  | succ n ih =>
    intro j k hk
    have hz : mandelStep x y (zIter x y j) = zIter x y (j + 1) := rfl
    simp only [mandelbrotAux, hz, sqNorm_def] at hk ⊢
    by_cases hc : sqNorm (zIter x y (j + 1)) > r
    · rw [if_pos hc] at hk
      simp at hk
    · rw [if_neg hc] at hk ⊢
      cases k with
      | zero => simp
      | succ k =>
        simp only [List.getElem?_cons_succ]
        have hk' : k < (mandelbrotAux x y r (zIter x y (j + 1)) n).length := by
          simpa using hk
        have := ih (j + 1) k hk'
        rw [this]
        have harith : j + 1 + k + 1 = j + (k + 1) + 1 := by omega
        rw [harith]

lemma mandelbrotAux_mem (x y r : ℚ) :
    ∀ (n : ℕ) (z p : ℚ × ℚ), p ∈ mandelbrotAux x y r z n → sqNorm p ≤ r := by
  intro n
  induction n with
  | zero => intro z p hp; simp [mandelbrotAux] at hp
  | succ n ih =>
    intro z p hp
    simp only [mandelbrotAux, sqNorm_def] at hp
    by_cases hc : sqNorm (mandelStep x y z) > r
    · rw [if_pos hc] at hp
      simp at hp
    · rw [if_neg hc] at hp
      rcases List.mem_cons.mp hp with h | h
      · subst h; exact le_of_not_lt hc
      · exact ih _ p h

lemma mandelbrotAux_stop (x y r : ℚ) :
    ∀ (n j m : ℕ), m = (mandelbrotAux x y r (zIter x y j) n).length → m < n →
      sqNorm (zIter x y (j + m + 1)) > r := by
  intro n
  induction n with
  | zero => intro j m _ hm; omega
  | succ n ih =>
    intro j m hm hlt
    have hz : mandelStep x y (zIter x y j) = zIter x y (j + 1) := rfl
    simp only [mandelbrotAux, hz, sqNorm_def] at hm
    by_cases hc : sqNorm (zIter x y (j + 1)) > r
    · rw [if_pos hc] at hm
      simp at hm
      subst hm
      simpa using hc
    · rw [if_neg hc] at hm
      simp only [List.length_cons] at hm
      have hm' : m - 1 = (mandelbrotAux x y r (zIter x y (j + 1)) n).length := by omega
      have hlt' : m - 1 < n := by omega
      have := ih (j + 1) (m - 1) hm' hlt'
      have harith : j + 1 + (m - 1) + 1 = j + m + 1 := by omega
      rwa [harith] at this

/-! ### C3: what the iterator emits -/

/-- C3 (amended): the iterator's internal state starts at z₀ = 0 but z₀
itself is never emitted: the k-th emitted value is z_{k+1} of the
recurrence z₀ = 0, zₙ₊₁ = zₙ² + seed; every emitted value has squared
magnitude at most r², and when the sequence stops before the external step
budget, the next recurrence value is the first whose squared magnitude
exceeds r². -/
theorem mandelbrot_emits_recurrence (x y d : ℚ) (n : ℕ) :
    (∀ (k : ℕ) (hk : k < (mandelbrot x y d n).length),
      (mandelbrot x y d n).get ⟨k, hk⟩ = zIter x y (k + 1))
    ∧ (∀ p ∈ mandelbrot x y d n, sqNorm p ≤ d * d)
    ∧ ((mandelbrot x y d n).length < n →
        sqNorm (zIter x y ((mandelbrot x y d n).length + 1)) > d * d) := by
  have hm : mandelbrot x y d n = mandelbrotAux x y (d * d) (zIter x y 0) n := rfl
  refine ⟨?_, ?_, ?_⟩
  · intro k hk
    have h1 := mandelbrotAux_getElem? x y (d * d) n 0 k (hm ▸ hk)
    rw [← hm] at h1
    have h2 : (mandelbrot x y d n)[k]? = some ((mandelbrot x y d n).get ⟨k, hk⟩) := by
      simp [List.getElem?_eq_getElem hk]
    rw [h2] at h1
    have harith : 0 + k + 1 = k + 1 := by omega
    rw [harith] at h1
    exact Option.some_injective _ h1
  · intro p hp
    exact mandelbrotAux_mem x y (d * d) n _ p (hm ▸ hp)
  · intro h
    have := mandelbrotAux_stop x y (d * d) n 0 (mandelbrot x y d n).length
      (by rw [hm]) (hm ▸ h)
    have harith : 0 + (mandelbrot x y d n).length + 1 = (mandelbrot x y d n).length + 1 := by
      omega
    rwa [harith] at this

theorem mandelbrot_emits_recurrence_witness :
    (mandelbrot 10 0 3 5).length < 5 ∧
      sqNorm (zIter 10 0 ((mandelbrot 10 0 3 5).length + 1)) > 3 * 3 :=
  ⟨by norm_num [mandelbrot, mandelbrotAux, mandelStep],
    (mandelbrot_emits_recurrence 10 0 3 5).2.2
      (by norm_num [mandelbrot, mandelbrotAux, mandelStep])⟩

/-- C3 counterexample: with seed (1, 0) and disc radius 3 the sequence is
non-empty and its 0-th emitted element is (1, 0) = z₁, not z₀ = (0, 0): the
emitted values do not start at z₀. -/
theorem mandelbrot_first_element_not_z0 :
    0 < (mandelbrot 1 0 3 2).length ∧
      (mandelbrot 1 0 3 2).getD 0 (0, 0) ≠ zIter 1 0 0 := by
  norm_num [mandelbrot, mandelbrotAux, mandelStep, zIter]

/-! ### C4: seeds outside the disc -/

/-- C4 (amended): when the squared magnitude of the seed strictly exceeds
the squared disc radius the iterator emits nothing at all (in particular
the sequence is empty or a single element); at exact equality |seed| = disc
the sequence can be arbitrarily long (see the counterexample). -/
theorem seed_outside_disc_empty (x y d : ℚ) (n : ℕ)
    (h : sqNorm (x, y) > d * d) : mandelbrot x y d n = [] := by
  have h' : x * x + y * y > d * d := h
  cases n with
  | zero => rfl
  | succ n =>
    simp only [mandelbrot, mandelbrotAux]
    have hz : mandelStep x y (0, 0) = (x, y) := by
      simp [mandelStep]
    rw [hz]
    rw [if_pos h']

theorem seed_outside_disc_empty_witness :
    sqNorm (10, 0) > 3 * 3 ∧ mandelbrot 10 0 3 5 = [] :=
  ⟨by norm_num [sqNorm], seed_outside_disc_empty 10 0 3 5 (by norm_num [sqNorm])⟩

/-- C4 counterexample: with disc radius 1 and seed (-1, 0) the seed's
magnitude equals the disc radius, yet the iterator emits a sequence of
length 3 (and cycles forever): the emitted sequence is neither empty nor a
single element. -/
theorem seed_on_disc_boundary_long :
    sqNorm (-1, 0) ≥ 1 * 1 ∧
      ¬((mandelbrot (-1) 0 1 3).length = 0 ∨ (mandelbrot (-1) 0 1 3).length = 1) := by
  norm_num [mandelbrot, mandelbrotAux, mandelStep, sqNorm]

/-! ### C1: only diverged paths contribute -/

/-- C1: the collected path always has length at most `steps`; when it has
length exactly `steps` the sample leaves the histogram unchanged, and when
it is shorter (the sample diverged) the worker folds the mapping,
bounds-check and increment step over every point of the path. -/
theorem path_contributes_iff_diverged (args : Opt) (img : Histogram) (x y : ℚ) :
    (mandelbrot x y args.disc args.steps).length ≤ args.steps
    ∧ ((mandelbrot x y args.disc args.steps).length = args.steps →
        workerSample args img x y = img)
    ∧ ((mandelbrot x y args.disc args.steps).length < args.steps →
        workerSample args img x y =
          (mandelbrot x y args.disc args.steps).foldl (processPointQ args) img) := by
  refine ⟨mandelbrotAux_length_le _ _ _ _ _, ?_, ?_⟩
  · intro h
    simp [workerSample, processSample, h]
  · intro h
    have hne : (mandelbrot x y args.disc args.steps).length ≠ args.steps := by omega
    simp [workerSample, processSample, hne]

theorem path_contributes_iff_diverged_witness :
    ((mandelbrot 0 0 (3 : ℚ) 2).length = 2 ∧
      workerSample ⟨1, 1, 0, 0, 1, 3, 2, 0, 2⟩ [0] 0 0 = [0])
    ∧ ((mandelbrot 10 0 (3 : ℚ) 2).length < 2 ∧
      workerSample ⟨1, 1, 0, 0, 1, 3, 2, 0, 2⟩ [0] 10 0 =
        (mandelbrot 10 0 (3 : ℚ) 2).foldl (processPointQ ⟨1, 1, 0, 0, 1, 3, 2, 0, 2⟩) [0]) := by
  have hlen : (mandelbrot 0 0 (3 : ℚ) 2).length = 2 := by
    norm_num [mandelbrot, mandelbrotAux, mandelStep]
  have hlen2 : (mandelbrot 10 0 (3 : ℚ) 2).length < 2 := by
    norm_num [mandelbrot, mandelbrotAux, mandelStep]
  exact ⟨⟨hlen, (path_contributes_iff_diverged ⟨1, 1, 0, 0, 1, 3, 2, 0, 2⟩ [0] 0 0).2.1 hlen⟩,
    ⟨hlen2, (path_contributes_iff_diverged ⟨1, 1, 0, 0, 1, 3, 2, 0, 2⟩ [0] 10 0).2.2 hlen2⟩⟩

/-! ### C8: bounds check, non-finite coordinates, index range -/

/-- C8: a cell is incremented only when both screen coordinates pass the
bounds check (which forces their truncations to be in range), NaN or
infinite coordinates silently leave the histogram unchanged, and every
accepted point's index trunc(sx) + trunc(sy)·width is below width·height. -/
theorem bounds_check_safety (args : Opt) (img : Histogram) (x y : F32) :
    ((bound_x args x && bound_y args y) = false → processPoint args img x y = img)
    ∧ (bound_x args x = true → x.toUsize < args.width)
    ∧ (bound_y args y = true → y.toUsize < args.height)
    ∧ ((x = F32.nan ∨ x = F32.posInf ∨ x = F32.negInf) →
        processPoint args img x y = img)
    ∧ ((y = F32.nan ∨ y = F32.posInf ∨ y = F32.negInf) →
        processPoint args img x y = img)
    ∧ ((bound_x args x && bound_y args y) = true →
        x.toUsize + y.toUsize * args.width < args.width * args.height) := by
  have hx : bound_x args x = true → x.toUsize < args.width := by
    intro hb
    cases x with
    | fin q =>
      simp only [bound_x, F32.ge0, F32.ltQ, Bool.and_eq_true, decide_eq_true_eq] at hb
      obtain ⟨hq0, hqw⟩ := hb
      calc min (Int.toNat ⌊q⌋) USIZEMAX ≤ Int.toNat ⌊q⌋ := min_le_left _ _
        _ = ⌊q⌋₊ := Int.floor_toNat q
        _ < args.width := (Nat.floor_lt hq0).mpr hqw
    | nan => simp [bound_x, F32.ge0] at hb
    | posInf => simp [bound_x, F32.ge0, F32.ltQ] at hb
    | negInf => simp [bound_x, F32.ge0] at hb
  have hy : bound_y args y = true → y.toUsize < args.height := by
    intro hb
    cases y with
    | fin q =>
      simp only [bound_y, F32.ge0, F32.ltQ, Bool.and_eq_true, decide_eq_true_eq] at hb
      obtain ⟨hq0, hqh⟩ := hb
      calc min (Int.toNat ⌊q⌋) USIZEMAX ≤ Int.toNat ⌊q⌋ := min_le_left _ _
        _ = ⌊q⌋₊ := Int.floor_toNat q
        _ < args.height := (Nat.floor_lt hq0).mpr hqh
    | nan => simp [bound_y, F32.ge0] at hb
    | posInf => simp [bound_y, F32.ge0, F32.ltQ] at hb
    | negInf => simp [bound_y, F32.ge0] at hb
  refine ⟨fun h => by simp [processPoint, h], hx, hy, ?_, ?_, ?_⟩
  · rintro (rfl | rfl | rfl) <;> simp [processPoint, bound_x, F32.ge0, F32.ltQ]
  · rintro (rfl | rfl | rfl) <;> simp [processPoint, bound_y, F32.ge0, F32.ltQ]
  · intro hb
    rw [Bool.and_eq_true] at hb
    have h1 := hx hb.1
    have h2 := hy hb.2
    calc x.toUsize + y.toUsize * args.width
        < args.width + y.toUsize * args.width := by omega
      _ = (y.toUsize + 1) * args.width := by ring
      _ ≤ args.height * args.width := Nat.mul_le_mul_right _ (by omega)
      _ = args.width * args.height := Nat.mul_comm _ _

theorem bounds_check_safety_witness :
    processPoint ⟨2, 2, 0, 0, 1, 3, 2, 0, 5⟩ [0, 0, 0, 0] (F32.fin (1 / 2)) F32.nan
        = [0, 0, 0, 0]
    ∧ (F32.fin (3 / 2)).toUsize + (F32.fin (3 / 2)).toUsize * 2 < 2 * 2 :=
  ⟨(bounds_check_safety ⟨2, 2, 0, 0, 1, 3, 2, 0, 5⟩ [0, 0, 0, 0]
      (F32.fin (1 / 2)) F32.nan).2.2.2.2.1 (Or.inl rfl),
    (bounds_check_safety ⟨2, 2, 0, 0, 1, 3, 2, 0, 5⟩ []
      (F32.fin (3 / 2)) (F32.fin (3 / 2))).2.2.2.2.2
      (by norm_num [bound_x, bound_y, F32.ge0, F32.ltQ])⟩

/-! ### C9: the sampler is the reference rejection sampler -/

/-- C9: with the two draw streams supplying values in [-r, r) (the uniform
sources), the sampler emits exactly the pairs the reference rejection
sampler accepts with the test x² + y² < r², and every emitted point lies
strictly inside the disc of radius r. -/
theorem sampler_is_rejection_sampler (radius : ℚ) (xs ys : ℕ → ℚ) (n : ℕ)
    (hx : ∀ i, -radius ≤ xs i ∧ xs i < radius)
    (hy : ∀ i, -radius ≤ ys i ∧ ys i < radius) :
    disc_points radius xs ys n = rejectionSampler radius xs ys n
    ∧ ∀ p ∈ disc_points radius xs ys n,
        p.1 * p.1 + p.2 * p.2 < radius * radius := by
  constructor
  · unfold disc_points rejectionSampler
    induction List.range n with
    | nil => rfl
    | cons a t ih =>
      by_cases h : (xs a) * (xs a) + (ys a) * (ys a) < radius * radius <;>
        simp [List.filter_cons, List.filterMap_cons, h, ih]
  · intro p hp
    unfold disc_points at hp
    exact of_decide_eq_true (List.mem_filter.mp hp).2

theorem sampler_is_rejection_sampler_witness :
    ((fun _ : ℕ => (0 : ℚ)) 0 < 1) ∧
      disc_points 1 (fun _ => 0) (fun _ => 0) 2
        = rejectionSampler 1 (fun _ => 0) (fun _ => 0) 2 :=
  ⟨by norm_num,
    (sampler_is_rejection_sampler 1 (fun _ => 0) (fun _ => 0) 2
      (fun _ => by norm_num) (fun _ => by norm_num)).1⟩

/-! ### C6: merging histograms is order-independent -/

lemma hAdd_right_comm (z x y : Histogram) : hAdd (hAdd z x) y = hAdd (hAdd z y) x := by
  induction z generalizing x y with
  | nil => cases x <;> cases y <;> rfl
  | cons a t ih =>
    cases x with
    | nil => cases y <;> rfl
    | cons b xs =>
      cases y with
      | nil => rfl
      | cons c ys =>
        simp only [hAdd]
        rw [satAdd_right_comm a b c, ih xs ys]

lemma hAdd_replicate_zero (L : ℕ) (h : Histogram) (hlen : h.length = L)
    (hb : ∀ c ∈ h, c ≤ U16MAX) : hAdd (List.replicate L 0) h = h := by
  induction h generalizing L with
  | nil =>
    simp only [List.length_nil] at hlen
    subst hlen
    rfl
  | cons a t ih =>
    cases L with
    | zero => simp at hlen
    | succ L =>
      simp only [List.length_cons, Nat.succ_inj] at hlen
      simp only [List.replicate_succ, hAdd]
      have ha : satAdd 0 a = a := by
        have := hb a (List.mem_cons_self a t)
        simp only [satAdd, Nat.zero_add]
        omega
      rw [ha, ih L hlen (fun c hc => hb c (List.mem_cons_of_mem a hc))]

lemma foldl_hAdd_out (d : List Histogram) (x y : Histogram) :
    d.foldl hAdd (hAdd x y) = hAdd (d.foldl hAdd x) y := by
  induction d generalizing x with
  | nil => rfl
  | cons h t ih =>
    simp only [List.foldl_cons]
    rw [hAdd_right_comm x y h]
    exact ih (hAdd x h)

lemma mergeAll_eq_foldl_zero (L : ℕ) (l : List Histogram) (hne : l ≠ [])
    (hlen : ∀ h ∈ l, h.length = L) (hb : ∀ h ∈ l, ∀ c ∈ h, c ≤ U16MAX) :
    mergeAll l = l.foldl hAdd (List.replicate L 0) := by
  rcases List.eq_nil_or_concat l with rfl | ⟨d, y, rfl⟩
  · exact absurd rfl hne
  · rw [List.concat_eq_append] at *
    have hymem : y ∈ d ++ [y] := by simp
    have hmergedef : mergeAll (d ++ [y]) = d.foldl hAdd y := by
      simp [mergeAll, List.getLast?_concat, List.dropLast_concat]
    rw [hmergedef]
    rw [List.foldl_append, List.foldl_cons, List.foldl_nil]
    rw [← foldl_hAdd_out d (List.replicate L 0) y]
    rw [hAdd_replicate_zero L y (hlen y hymem) (hb y hymem)]

/-- C6: merging a non-empty list of equally-sized u16 histograms by
element-wise saturating addition (last popped, rest folded in) gives the
same result for every permutation of the list. -/
theorem merge_order_independent (l₁ l₂ : List Histogram) (L : ℕ)
    (hlen : ∀ h ∈ l₁, h.length = L)
    (hb : ∀ h ∈ l₁, ∀ c ∈ h, c ≤ U16MAX)
    (hp : l₁.Perm l₂) :
    mergeAll l₁ = mergeAll l₂ := by
  by_cases hne : l₁ = []
  · subst hne
    rw [hp.symm.eq_nil]
  · have hlen2 : ∀ h ∈ l₂, h.length = L := fun h hh => hlen h (hp.mem_iff.mpr hh)
    have hb2 : ∀ h ∈ l₂, ∀ c ∈ h, c ≤ U16MAX := fun h hh => hb h (hp.mem_iff.mpr hh)
    have hne2 : l₂ ≠ [] := by
      intro h
      rw [h] at hp
      exact hne hp.eq_nil
    rw [mergeAll_eq_foldl_zero L l₁ hne hlen hb,
      mergeAll_eq_foldl_zero L l₂ hne2 hlen2 hb2]
    exact hp.foldl_eq' (fun a _ b _ z => hAdd_right_comm z a b) _

theorem merge_order_independent_witness :
    mergeAll [[1], [2], [3]] = mergeAll [[3], [1], [2]] :=
  merge_order_independent [[1], [2], [3]] [[3], [1], [2]] 1
    (by decide) (by decide) (by decide)

end BuddhaFractal
